/-
Verification of the chunk-and-combine document summarization pipeline.

The development shallowly embeds the Python sources
(`advanced_summarizer.py`, `document_qa.py`) in Lean 4:

* text is modeled as `List Char` (one entry per Python character);
* `text.split("\n\n")` becomes `split2`, Python `str.strip()` becomes
  `pyStrip`, `"\n\n".join` becomes `join2`, `str.split()` becomes `splitWS`;
* each outbound LLM completion call is an exchange with an opaque external
  service, so its outcome (response text plus token usage, or an error) is
  an input of the embedding, supplied by an `Env` of per-call-site
  outcomes; prompt construction, which only feeds that external service
  and never influences the control flow of the code itself, is not modeled beyond
  the arguments the source passes around;
* the monetary cost arithmetic (Python floats) is modeled exactly over ℚ.
-/
import Mathlib

namespace DocSummarizer

/-- Python whitespace predicate used by `str.strip()` and `str.split()`:
tab, newline, vertical tab, form feed, carriage return, space, the
file/group/record/unit separators, NEL and NBSP.  (Further Unicode
space-category characters exist in Python; only the character codes
below occur in the properties verified here.) -/
def pySpace (c : Char) : Bool :=
  c.toNat = 9 || c.toNat = 10 || c.toNat = 11 || c.toNat = 12 ||
  c.toNat = 13 || c.toNat = 28 || c.toNat = 29 || c.toNat = 30 ||
  c.toNat = 31 || c.toNat = 32 || c.toNat = 133 || c.toNat = 160

/-- Drop leading Python whitespace (`str.lstrip()`). -/
def dropLead (s : List Char) : List Char := s.dropWhile pySpace

/-- Drop trailing Python whitespace (`str.rstrip()`). -/
def dropTrail (s : List Char) : List Char := (s.reverse.dropWhile pySpace).reverse

/-- Python `str.strip()`. -/
def pyStrip (s : List Char) : List Char := dropTrail (dropLead s)

/-- Prepend a character to the first piece of a piece list (helper for
`split2`; the empty-list case never arises because `split2` never
returns `[]`). -/
def consHead (c : Char) : List (List Char) → List (List Char)
  | [] => [[c]]
  | s :: ss => (c :: s) :: ss

/-- Python `text.split("\n\n")`: split on each leftmost, non-overlapping
occurrence of two consecutive newline characters.  The empty string
yields `[""]`, exactly as in Python. -/
def split2 : List Char → List (List Char)
  | [] => [[]]
  | [c] => [[c]]
  | c1 :: c2 :: rest =>
    if c1 = '\n' ∧ c2 = '\n' then [] :: split2 rest
    else consHead c1 (split2 (c2 :: rest))

/-- Python `"\n\n".join(pieces)`. -/
def join2 : List (List Char) → List Char
  | [] => []
  | [s] => s
  | s :: rest => s ++ '\n' :: '\n' :: join2 rest

/-- Accumulator loop of `splitWS` (Python `str.split()` with no
separator): whitespace runs separate words, no empty words are
produced. -/
def splitWSAux : List Char → List Char → List (List Char)
  | [], acc => if acc = [] then [] else [acc.reverse]
  | c :: rest, acc =>
    if pySpace c then
      if acc = [] then splitWSAux rest [] else acc.reverse :: splitWSAux rest []
    else splitWSAux rest (c :: acc)

/-- Python `text.split()` (used by the source only to compute the word
count of the document). -/
def splitWS (s : List Char) : List (List Char) := splitWSAux s []

/-- The paragraph-accumulation loop of `chunk_text`
(`advanced_summarizer.py`, lines 20–30): walk the paragraphs; when
adding the next paragraph would push the non-empty buffer past
`chunk_size`, flush the stripped buffer; otherwise append the paragraph
to the buffer joined by a blank line; finally flush any non-empty
buffer. -/
def chunkLoop (chunk_size : Nat) : List (List Char) → List Char → List (List Char)
  | [], current => if current = [] then [] else [pyStrip current]
  | p :: ps, current =>
    if chunk_size < current.length + p.length ∧ current ≠ [] then
      pyStrip current :: chunkLoop chunk_size ps p
    else
      chunkLoop chunk_size ps (if current = [] then p else current ++ '\n' :: '\n' :: p)

/-- Function `chunk_text(text, chunk_size)` from `advanced_summarizer.py`
(lines 9–32; the default `chunk_size` in the source is 3000 and the pipeline
calls it with 10000): split the text at blank-line paragraph boundaries
and accumulate paragraphs into chunks. -/
def chunk_text (text : List Char) (chunk_size : Nat) : List (List Char) :=
  chunkLoop chunk_size (split2 text) []

/-! ## The external LLM service boundary

Every call site in the source wraps one
`client.chat.completions.create(...)` exchange in a `try`/`except`.  The
exchange either delivers response text together with prompt/completion
token counts, or raises, which the call site converts into a failure
value.  The embedding takes these outcomes as inputs: an `Env` fixes the
outcome of each call site of one `advanced_summarize` run (the i-th
chunk-summarization call has its own slot). -/

/-- A successful completion response: the message content and the token
usage reported by the service. -/
structure LLMSuccess where
  content : List Char
  promptTokens : Nat
  completionTokens : Nat
deriving DecidableEq

/-- Outcome of one completion call: a response, or the text of the
raised exception. -/
inductive LLMResult where
  | ok : LLMSuccess → LLMResult
  | err : List Char → LLMResult
deriving DecidableEq

/-- Holds exactly on a failed call. -/
def LLMResult.isErr : LLMResult → Bool
  | .ok _ => false
  | .err _ => true

/-- The cost formula appearing verbatim at every call site:
`(prompt_tokens / 1000) * 0.00015 + (completion_tokens / 1000) * 0.0006`,
computed exactly over ℚ. -/
def tariff (r : LLMSuccess) : ℚ :=
  ((r.promptTokens : ℚ) / 1000) * (15 / 100000) +
    ((r.completionTokens : ℚ) / 1000) * (6 / 10000)

/-- Per-call-site outcomes of one pipeline run. -/
structure Env where
  extractCall : LLMResult
  directCall : LLMResult
  chunkCall : Nat → LLMResult
  combineCall : LLMResult

/-- Return value of `summarize_chunk`: the dict
`{success, summary, tokens, cost}` on success, `{success, error}` on
failure. -/
inductive ChunkSummaryOutcome where
  | ok (summary : List Char) (tokens : Nat) (cost : ℚ)
  | fail (error : List Char)
deriving DecidableEq

/-- Function `summarize_chunk(chunk, chunk_number, total_chunks)` from
`advanced_summarizer.py` (lines 34–70).  The three source arguments only
shape the prompt sent to the external service, so they do not influence
the returned value beyond the outcome of the call. -/
def summarize_chunk (_chunk : List Char) (_chunk_number _total_chunks : Nat)
    (call : LLMResult) : ChunkSummaryOutcome :=
  match call with
  | .ok r => .ok r.content (r.promptTokens + r.completionTokens) (tariff r)
  | .err e => .fail e

/-- Function `combine_summaries(chunk_summaries)` from `advanced_summarizer.py`
(lines 72–111).  The summaries are joined into the prompt only; the
returned value is determined by the outcome of the call. -/
def combine_summaries (_chunk_summaries : List (List Char))
    (call : LLMResult) : ChunkSummaryOutcome :=
  match call with
  | .ok r => .ok r.content (r.promptTokens + r.completionTokens) (tariff r)
  | .err e => .fail e

/-- Return value of `extract_key_info`: `{success, extraction, tokens,
cost}` on success, `{success, error}` on failure. -/
inductive ExtractOutcome where
  | ok (extraction : List Char) (tokens : Nat) (cost : ℚ)
  | fail (error : List Char)
deriving DecidableEq

/-- Function `extract_key_info(text)` from `advanced_summarizer.py` (lines
113–154).  The document prefix `text[:8000]` enters the prompt only. -/
def extract_key_info (_text : List Char) (call : LLMResult) : ExtractOutcome :=
  match call with
  | .ok r => .ok r.content (r.promptTokens + r.completionTokens) (tariff r)
  | .err e => .fail e

/-- The structured result dict built at the end of `advanced_summarize`
(lines 266–272). -/
structure PipelineResult where
  summary : List Char
  key_info : List Char
  total_cost : ℚ
  chunks_processed : Nat
  original_words : Nat
deriving DecidableEq

/-- The chunk fan-out loop of `advanced_summarize` (lines 230–242):
process the chunks left to right (the i-th chunk is call slot `i`),
collect the summaries of the successful calls in chunk order and the
total cost of the successful calls (the source accumulates the costs
with a running `total_cost +=`; the right-nested ℚ sum below is the same
number). -/
def processChunks (env : Env) (total : Nat) :
    List (List Char) → Nat → List (List Char) × ℚ
  | [], _ => ([], 0)
  | chunk :: rest, i =>
    let r := summarize_chunk chunk (i + 1) total (env.chunkCall i)
    let acc := processChunks env total rest (i + 1)
    match r with
    | .ok s _ c => (s :: acc.1, c + acc.2)
    | .fail _ => acc

/-- Function `advanced_summarize(text)` from `advanced_summarizer.py`
(lines 156–274): extract key information, route on
`char_count < 12000` between the direct path and the
chunk/summarize/combine path, and assemble the result dict; `None` is
returned when the direct call fails or when no chunk call succeeds. -/
def advanced_summarize (env : Env) (text : List Char) : Option PipelineResult :=
  let word_count := (splitWS text).length
  let char_count := text.length
  let extraction_result := extract_key_info text env.extractCall
  let total_cost : ℚ :=
    match extraction_result with
    | .ok _ _ c => 0 + c
    | .fail _ => 0
  let key_info : List Char :=
    match extraction_result with
    | .ok ex _ _ => ex
    | .fail _ => ("Extraction failed").toList
  if char_count < 12000 then
    match env.directCall with
    | .err _ => none
    | .ok r =>
      some ⟨r.content, key_info, total_cost + tariff r, 1, word_count⟩
  else
    let chunks := chunk_text text 10000
    let fanOut := processChunks env chunks.length chunks 0
    match fanOut.1 with
    | [] => none
    | s :: rest =>
      if 1 < chunks.length then
        match combine_summaries fanOut.1 env.combineCall with
        | .ok cSum _ cCost =>
          some ⟨cSum, key_info, total_cost + fanOut.2 + cCost, chunks.length, word_count⟩
        | .fail _ =>
          some ⟨join2 (s :: rest), key_info, total_cost + fanOut.2, chunks.length, word_count⟩
      else
        some ⟨s, key_info, total_cost + fanOut.2, chunks.length, word_count⟩

/-! ## The Q&A session (`document_qa.py`) -/

/-- The module-level `session_stats` dict of `document_qa.py`
(lines 16–19). -/
structure SessionStats where
  questions_asked : Nat
  total_cost : ℚ
deriving DecidableEq

/-- Return value of `answer_question`: `{success, answer, tokens, cost}`
or `{success, error}`. -/
inductive QAResult where
  | ok (answer : List Char) (tokens : Nat) (cost : ℚ)
  | fail (error : List Char)
deriving DecidableEq

/-- Function `answer_question(question)` from `document_qa.py` (lines 42–98),
with the module-level state (the text field of `current_document` and
`session_stats`) passed explicitly and the updated stats returned.  The
question and the truncated document prefix `text[:30000]` enter the
prompt only; on success the stats are bumped before returning, on any
failure they are left untouched. -/
def answer_question (_question : List Char) (docText : List Char)
    (stats : SessionStats) (call : LLMResult) : QAResult × SessionStats :=
  if docText = [] then
    (.fail ("No document loaded! Please load a document first.").toList, stats)
  else
    match call with
    | .ok r =>
      (.ok r.content (r.promptTokens + r.completionTokens) (tariff r),
        ⟨stats.questions_asked + 1, stats.total_cost + tariff r⟩)
    | .err e => (.fail e, stats)

/-- No two consecutive newline characters occur in the string: the
string contains no paragraph separator. -/
def noSep : List Char → Bool
  | c1 :: c2 :: rest => !(c1 == '\n' && c2 == '\n') && noSep (c2 :: rest)
  | _ => true

/-- Strip every piece and drop the pieces that strip to nothing. -/
def nonEmptyPieces (l : List (List Char)) : List (List Char) :=
  (l.map pyStrip).filter (fun p => !p.isEmpty)

/-- The ordered sequence of stripped non-empty paragraphs of a string. -/
def nonEmptyPars (s : List Char) : List (List Char) :=
  nonEmptyPieces (split2 s)

/-- The string ends with a newline character. -/
def endsNl (s : List Char) : Bool := s.getLast? == some '\n'

/-- Effect on the pieces of appending one character to the string: the
last piece grows by `c`, unless `c` is a newline meeting a trailing
newline of the last piece, which closes a separator and opens a final
empty piece. -/
def appendChar (c : Char) : List (List Char) → List (List Char)
  | [] => [[c]]
  | [p] => if c = '\n' ∧ endsNl p = true then [p.dropLast, []] else [p ++ [c]]
  | p :: ps => p :: appendChar c ps

/-- Effect on the pieces of appending a blank-line separator followed by
`y`: the pieces of `y` are appended after the last piece, except that a
trailing newline of the last piece pairs with the first separator
newline, leaving a leftover newline in front of `y`. -/
def appendSep (y : List Char) : List (List Char) → List (List Char)
  | [] => []
  | [p] =>
    if endsNl p = true then p.dropLast :: split2 ('\n' :: y)
    else p :: split2 y
  | p :: ps => p :: appendSep y ps

/-- The extraction cost actually accrued by a run (zero on failure). -/
def extractCost (env : Env) : ℚ :=
  match env.extractCall with
  | .ok r => tariff r
  | .err _ => 0

/-- The `key_info` field the run reports. -/
def extractKeyInfoStr (env : Env) : List Char :=
  match env.extractCall with
  | .ok r => r.content
  | .err _ => ("Extraction failed").toList

/-- The costs of the successful chunk-summarization calls among slots
`i, i+1, …, i+n-1`, in call order. -/
def succChunkCosts (env : Env) : Nat → Nat → List ℚ
  | 0, _ => []
  | n + 1, i =>
    (match env.chunkCall i with
      | .ok r => [tariff r]
      | .err _ => []) ++ succChunkCosts env n (i + 1)

/-- A 20,000-character two-paragraph document used as the concrete long
input: 9,999 letters, a blank line, 9,999 letters. -/
def textLong : List Char :=
  List.replicate 9999 'a' ++ '\n' :: '\n' :: List.replicate 9999 'b'

/-- A 12,000-character single-paragraph document: exactly at the routing
threshold, producing one (oversized) chunk. -/
def text12k : List Char := List.replicate 12000 'a'

/-- An 11,999-character document: one character under the threshold. -/
def textShort : List Char := List.replicate 11999 'a'

/-- The view the specification takes of cost accounting, written from its words:
the individual costs of every successful sub-call made during the run —
the extraction call; then, below the routing threshold, the direct
summarization call; at or above it, the successful chunk-summarization
calls followed by the combination call when it is made (more than one
chunk and at least one successful chunk summary) and succeeds.  Failed
sub-calls contribute nothing. -/
def specSuccessfulCallCosts (env : Env) (text : List Char) : List ℚ :=
  (match env.extractCall with
    | .ok r => [tariff r]
    | .err _ => []) ++
  if text.length < 12000 then
    match env.directCall with
    | .ok r => [tariff r]
    | .err _ => []
  else
    succChunkCosts env (chunk_text text 10000).length 0 ++
      if 1 < (chunk_text text 10000).length ∧
          succChunkCosts env (chunk_text text 10000).length 0 ≠ [] then
        match env.combineCall with
        | .ok r => [tariff r]
        | .err _ => []
      else []

/-- Every call succeeds; the two chunk slots answer `S1` and `S2`. -/
def envAllOk : Env where
  extractCall := .ok ⟨("E").toList, 1, 1⟩
  directCall := .ok ⟨("D").toList, 1, 1⟩
  chunkCall := fun i =>
    if i = 0 then .ok ⟨("S1").toList, 1, 1⟩ else .ok ⟨("S2").toList, 1, 1⟩
  combineCall := .ok ⟨("C").toList, 1, 1⟩

/-- Every chunk-summarization call fails; everything else succeeds. -/
def envAllFail : Env where
  extractCall := .ok ⟨("E").toList, 10, 5⟩
  directCall := .ok ⟨("D").toList, 10, 5⟩
  chunkCall := fun _ => .err ("boom").toList
  combineCall := .ok ⟨("C").toList, 10, 5⟩

/-- Chunk slot 1 succeeds with `S`, slot 0 fails; combining would answer
`C`. -/
def envOneOfTwo : Env where
  extractCall := .err ("x").toList
  directCall := .err ("x").toList
  chunkCall := fun i =>
    if i = 1 then .ok ⟨("S").toList, 100, 50⟩ else .err ("boom").toList
  combineCall := .ok ⟨("C").toList, 80, 40⟩

/-- Both chunk slots succeed; the combination call fails. -/
def envCombineFail : Env where
  extractCall := .err ("x").toList
  directCall := .err ("x").toList
  chunkCall := fun i =>
    if i = 0 then .ok ⟨("S1").toList, 10, 5⟩ else .ok ⟨("S2").toList, 20, 7⟩
  combineCall := .err ("boom").toList

/-- Extraction succeeds, the direct summarization call fails. -/
def envExtractOnly : Env where
  extractCall := .ok ⟨("E").toList, 10, 5⟩
  directCall := .err ("boom").toList
  chunkCall := fun _ => .err ("x").toList
  combineCall := .err ("x").toList

/-- Extraction fails, the direct summarization call succeeds. -/
def envExtractFail : Env where
  extractCall := .err ("x").toList
  directCall := .ok ⟨("D").toList, 10, 5⟩
  chunkCall := fun _ => .err ("x").toList
  combineCall := .err ("x").toList

/-! ## Structure of `split2` -/

theorem consHead_ne_nil (c : Char) (l : List (List Char)) : consHead c l ≠ [] := by
  cases l <;> simp [consHead]

theorem split2_ne_nil : ∀ s : List Char, split2 s ≠ []
  | [] => by simp [split2]
  | [c] => by simp [split2]
  | c1 :: c2 :: rest => by
    simp only [split2]
    split
    · simp
    · exact consHead_ne_nil _ _

/-- The first piece of `split2 (c :: z)` is either empty or starts with
`c`. -/
theorem split2_cons_shape (c : Char) (z : List Char) :
    (∃ ss, split2 (c :: z) = [] :: ss) ∨
      ∃ s ss, split2 (c :: z) = (c :: s) :: ss := by
  cases z with
  | nil => right; exact ⟨[], [], by simp [split2]⟩
  | cons c2 z3 =>
    by_cases h : c = '\n' ∧ c2 = '\n'
    · left; exact ⟨split2 z3, by simp [split2, h]⟩
    · right
      obtain ⟨s, ss, hs⟩ := List.exists_cons_of_ne_nil (split2_ne_nil (c2 :: z3))
      exact ⟨s, ss, by simp [split2, h, hs, consHead]⟩

/-- Every piece produced by `split2` is separator-free. -/
theorem noSep_of_mem_split2 : ∀ s : List Char, ∀ p ∈ split2 s, noSep p
  | [] => by simp [split2, noSep]
  | [c] => by simp [split2, noSep]
  | c1 :: c2 :: rest => by
    intro p hp
    by_cases h : c1 = '\n' ∧ c2 = '\n'
    · simp only [split2, if_pos h, List.mem_cons] at hp
      rcases hp with rfl | hp
      · simp [noSep]
      · exact noSep_of_mem_split2 rest p hp
    · simp only [split2, if_neg h] at hp
      obtain ⟨s, ss, hs⟩ := List.exists_cons_of_ne_nil (split2_ne_nil (c2 :: rest))
      rw [hs, consHead, List.mem_cons] at hp
      rcases hp with rfl | hp
      · have hmem : s ∈ split2 (c2 :: rest) := by rw [hs]; exact List.mem_cons_self _ _
        have hnos := noSep_of_mem_split2 (c2 :: rest) s hmem
        cases s with
        | nil => simp [noSep]
        | cons d s1 =>
          have hd : d = c2 := by
            rcases split2_cons_shape c2 rest with ⟨ss', hss'⟩ | ⟨s', ss', hss'⟩
            · rw [hss'] at hs; injection hs with h1 _; cases h1
            · rw [hss'] at hs; injection hs with h1 _
              injection h1 with h2 _; exact h2.symm
          subst hd
          simp only [noSep, Bool.and_eq_true]
          constructor
          · by_cases hc1 : c1 = '\n' <;> by_cases hc2 : d = '\n' <;> simp_all
          · exact hnos
      · exact noSep_of_mem_split2 (c2 :: rest) p (by rw [hs]; exact List.mem_cons_of_mem _ hp)

/-- A separator-free string is a single piece. -/
theorem split2_eq_self : ∀ p : List Char, noSep p → split2 p = [p]
  | [], _ => by simp [split2]
  | [c], _ => by simp [split2]
  | c1 :: c2 :: rest, h => by
    simp only [noSep, Bool.and_eq_true, Bool.not_eq_true', Bool.and_eq_false_iff,
      beq_iff_eq] at h
    have hnot : ¬(c1 = '\n' ∧ c2 = '\n') := by
      intro ⟨ha, hb⟩
      rcases h.1 with hc | hc <;> simp [ha, hb] at hc
    rw [split2, if_neg hnot, split2_eq_self (c2 :: rest) (by
      simpa [noSep] using h.2), consHead]

theorem join2_cons_cons (s a : List Char) (l : List (List Char)) :
    join2 (s :: a :: l) = s ++ '\n' :: '\n' :: join2 (a :: l) := by
  simp [join2]

theorem join2_consHead (c : Char) (l : List (List Char)) (h : l ≠ []) :
    join2 (consHead c l) = c :: join2 l := by
  obtain ⟨s, ss, rfl⟩ := List.exists_cons_of_ne_nil h
  cases ss <;> simp [consHead, join2]

/-- Joining the pieces back with blank lines reconstructs the string. -/
theorem join2_split2 : ∀ s : List Char, join2 (split2 s) = s
  | [] => by simp [split2, join2]
  | [c] => by simp [split2, join2]
  | c1 :: c2 :: rest => by
    by_cases h : c1 = '\n' ∧ c2 = '\n'
    · obtain ⟨a, b, hab⟩ := List.exists_cons_of_ne_nil (split2_ne_nil rest)
      rw [split2, if_pos h, hab, join2_cons_cons, ← hab, join2_split2 rest]
      simp [h.1, h.2]
    · rw [split2, if_neg h, join2_consHead _ _ (split2_ne_nil _), join2_split2 (c2 :: rest)]

/-! ## Facts about `pyStrip` -/

theorem pyStrip_nil : pyStrip [] = [] := by
  simp [pyStrip, dropLead, dropTrail]

theorem dropLead_cons_space (c : Char) (s : List Char) (h : pySpace c = true) :
    dropLead (c :: s) = dropLead s := by
  simp [dropLead, List.dropWhile_cons, h]

theorem pyStrip_cons_space (c : Char) (s : List Char) (h : pySpace c = true) :
    pyStrip (c :: s) = pyStrip s := by
  simp [pyStrip, dropLead_cons_space c s h]

theorem dropTrail_cons_nonspace (c : Char) (s : List Char) (h : pySpace c = false) :
    dropTrail (c :: s) = c :: dropTrail s := by
  rw [dropTrail, dropTrail, List.reverse_cons, List.dropWhile_append]
  split
  · next hemp =>
    simp only [List.isEmpty_iff] at hemp
    simp [List.dropWhile_cons, h, hemp]
  · simp

theorem pyStrip_cons_nonspace (c : Char) (s : List Char) (h : pySpace c = false) :
    pyStrip (c :: s) = c :: dropTrail s := by
  rw [pyStrip, dropLead, List.dropWhile_cons]
  simp only [h, Bool.false_eq_true, if_false]
  exact dropTrail_cons_nonspace c s h

theorem dropTrail_append_space (s : List Char) (c : Char) (h : pySpace c = true) :
    dropTrail (s ++ [c]) = dropTrail s := by
  simp [dropTrail, List.dropWhile_cons, h]

theorem pyStrip_append_space (s : List Char) (c : Char) (h : pySpace c = true) :
    pyStrip (s ++ [c]) = pyStrip s := by
  rw [pyStrip, pyStrip, dropLead, dropLead, List.dropWhile_append]
  split
  · next hemp =>
    simp only [List.isEmpty_iff] at hemp
    rw [hemp]
    simp [List.dropWhile_cons, h, dropTrail]
  · exact dropTrail_append_space _ c h

theorem dropTrail_length_le (s : List Char) : (dropTrail s).length ≤ s.length := by
  rw [dropTrail, List.length_reverse]
  calc (s.reverse.dropWhile pySpace).length ≤ s.reverse.length :=
        (List.dropWhile_sublist _).length_le
    _ = s.length := List.length_reverse s

theorem pyStrip_length_le (s : List Char) : (pyStrip s).length ≤ s.length := by
  rw [pyStrip]
  calc (dropTrail (dropLead s)).length ≤ (dropLead s).length := dropTrail_length_le _
    _ ≤ s.length := (List.dropWhile_sublist _).length_le

/-! ## Paragraph equivalence

Two strings are paragraph-equivalent when they have the same ordered
sequence of non-empty paragraphs up to whitespace at paragraph
boundaries.  `nonEmptyPars s` computes that sequence: split on blank
lines, strip each paragraph, drop the empty ones. -/

theorem nonEmptyPieces_append (l1 l2 : List (List Char)) :
    nonEmptyPieces (l1 ++ l2) = nonEmptyPieces l1 ++ nonEmptyPieces l2 := by
  simp [nonEmptyPieces]

theorem nonEmptyPieces_nil_cons (l : List (List Char)) :
    nonEmptyPieces ([] :: l) = nonEmptyPieces l := by
  simp [nonEmptyPieces, pyStrip_nil]

/-- Prepending a whitespace character never changes the sequence of
stripped non-empty paragraphs. -/
theorem nonEmptyPars_cons_space :
    ∀ (z : List Char) (c : Char), pySpace c = true →
      nonEmptyPars (c :: z) = nonEmptyPars z
  | [], c, h => by
    simp [nonEmptyPars, split2, nonEmptyPieces, pyStrip_cons_space c [] h, pyStrip_nil]
  | c2 :: z', c, h => by
    by_cases hsep : c = '\n' ∧ c2 = '\n'
    · obtain ⟨rfl, rfl⟩ := hsep
      have h2 : split2 ('\n' :: '\n' :: z') = [] :: split2 z' := by
        rw [split2]; simp
      have h3 : nonEmptyPars ('\n' :: '\n' :: z') = nonEmptyPars z' := by
        rw [nonEmptyPars, h2, nonEmptyPieces_nil_cons]; rfl
      rw [h3]
      exact (nonEmptyPars_cons_space z' '\n' (by decide)).symm
    · obtain ⟨s, ss, hs⟩ := List.exists_cons_of_ne_nil (split2_ne_nil (c2 :: z'))
      have h2 : split2 (c :: c2 :: z') = (c :: s) :: ss := by
        rw [split2, if_neg hsep, hs, consHead]
      rw [nonEmptyPars, h2, nonEmptyPars, hs]
      simp only [nonEmptyPieces, List.map_cons, List.filter_cons,
        pyStrip_cons_space c s h]

/-! ## `split2` over appends -/

theorem endsNl_nil : endsNl [] = false := by decide

theorem endsNl_cons_cons (c d : Char) (s : List Char) :
    endsNl (c :: d :: s) = endsNl (d :: s) := by
  simp [endsNl, List.getLast?_cons_cons]

theorem endsNl_cons_of_ne_nil (c : Char) (s : List Char) (h : s ≠ []) :
    endsNl (c :: s) = endsNl s := by
  obtain ⟨d, s', rfl⟩ := List.exists_cons_of_ne_nil h
  exact endsNl_cons_cons c d s'

theorem exists_of_endsNl (p : List Char) (h : endsNl p = true) :
    p = p.dropLast ++ ['\n'] := by
  simp only [endsNl, beq_iff_eq] at h
  have hne : p ≠ [] := by rintro rfl; simp at h
  have h3 : p.getLast hne = '\n' := by
    rw [List.getLast?_eq_getLast p hne] at h
    exact Option.some.inj h
  rw [← h3]
  exact (List.dropLast_concat_getLast hne).symm

/-- Only the empty string has the piece list `[[]]`. -/
theorem eq_nil_of_split2_singleton : ∀ w : List Char, split2 w = [[]] → w = []
  | [], _ => rfl
  | [c], h => by simp [split2] at h
  | c1 :: c2 :: r, h => by
    by_cases hsep : c1 = '\n' ∧ c2 = '\n'
    · rw [split2, if_pos hsep] at h
      injection h with _ h2
      exact absurd h2 (split2_ne_nil r)
    · rw [split2, if_neg hsep] at h
      obtain ⟨s, ss, hs⟩ := List.exists_cons_of_ne_nil (split2_ne_nil (c2 :: r))
      rw [hs, consHead] at h
      injection h with h1 _
      cases h1

theorem appendChar_consHead (c c1 : Char) (l : List (List Char))
    (hne : l ≠ []) (hs : ∀ s, l = [s] → s ≠ []) :
    appendChar c (consHead c1 l) = consHead c1 (appendChar c l) := by
  obtain ⟨s, ss, rfl⟩ := List.exists_cons_of_ne_nil hne
  cases ss with
  | nil =>
    have hsne : s ≠ [] := hs s rfl
    obtain ⟨d, s', rfl⟩ := List.exists_cons_of_ne_nil hsne
    rw [consHead]
    show appendChar c [c1 :: d :: s'] = consHead c1 (appendChar c [d :: s'])
    rw [appendChar, appendChar, endsNl_cons_cons]
    split
    · simp [consHead, List.dropLast_cons₂]
    · simp [consHead]
  | cons a b =>
    show appendChar c (consHead c1 (s :: a :: b)) = consHead c1 (appendChar c (s :: a :: b))
    simp only [consHead, appendChar]

/-- Appending one character extends the last piece (or closes a
separator). -/
theorem split2_append_char : ∀ (z : List Char) (c : Char),
    split2 (z ++ [c]) = appendChar c (split2 z)
  | [], c => by simp [split2, appendChar, endsNl_nil]
  | [c1], c => by
    by_cases hsep : c1 = '\n' ∧ c = '\n'
    · obtain ⟨rfl, rfl⟩ := hsep
      show split2 ['\n', '\n'] = appendChar '\n' [['\n']]
      rw [split2, if_pos ⟨rfl, rfl⟩]
      simp [split2, appendChar, endsNl]
    · show split2 [c1, c] = appendChar c [[c1]]
      rw [split2, if_neg hsep, appendChar]
      have : ¬(c = '\n' ∧ endsNl [c1] = true) := by
        intro ⟨h1, h2⟩
        simp only [endsNl, List.getLast?_singleton, beq_iff_eq, Option.some.injEq] at h2
        exact hsep ⟨h2, h1⟩
      rw [if_neg this]
      simp [split2, consHead]
  | c1 :: c2 :: z3, c => by
    by_cases hsep : c1 = '\n' ∧ c2 = '\n'
    · show split2 (c1 :: c2 :: (z3 ++ [c])) = appendChar c (split2 (c1 :: c2 :: z3))
      rw [split2, if_pos hsep, split2, if_pos hsep, split2_append_char z3 c]
      obtain ⟨a, b, hab⟩ := List.exists_cons_of_ne_nil (split2_ne_nil z3)
      rw [hab]
      simp only [appendChar]
    · show split2 (c1 :: c2 :: (z3 ++ [c])) = appendChar c (split2 (c1 :: c2 :: z3))
      rw [split2, if_neg hsep, split2, if_neg hsep]
      have hrec : split2 (c2 :: z3 ++ [c]) = appendChar c (split2 (c2 :: z3)) :=
        split2_append_char (c2 :: z3) c
      rw [show c2 :: (z3 ++ [c]) = (c2 :: z3) ++ [c] from rfl, hrec]
      refine (appendChar_consHead c c1 _ (split2_ne_nil _) ?_).symm
      intro s hsingle hnil
      subst hnil
      exact (List.cons_ne_nil c2 z3) (eq_nil_of_split2_singleton _ hsingle)

theorem appendSep_consHead (y : List Char) (c1 : Char) (l : List (List Char))
    (hne : l ≠ []) (hs : ∀ s, l = [s] → s ≠ []) :
    appendSep y (consHead c1 l) = consHead c1 (appendSep y l) := by
  obtain ⟨s, ss, rfl⟩ := List.exists_cons_of_ne_nil hne
  cases ss with
  | nil =>
    have hsne : s ≠ [] := hs s rfl
    obtain ⟨d, s', rfl⟩ := List.exists_cons_of_ne_nil hsne
    rw [consHead]
    show appendSep y [c1 :: d :: s'] = consHead c1 (appendSep y [d :: s'])
    rw [appendSep, appendSep, endsNl_cons_cons]
    split
    · simp [consHead, List.dropLast_cons₂]
    · simp [consHead]
  | cons a b =>
    show appendSep y (consHead c1 (s :: a :: b)) = consHead c1 (appendSep y (s :: a :: b))
    simp only [consHead, appendSep]

/-- Appending a blank-line separator and then `y` appends the pieces of
`y` (with the trailing-newline adjustment on the last piece). -/
theorem split2_append_sep : ∀ (x y : List Char),
    split2 (x ++ '\n' :: '\n' :: y) = appendSep y (split2 x)
  | [], y => by
    show split2 ('\n' :: '\n' :: y) = appendSep y [[]]
    rw [split2, if_pos ⟨rfl, rfl⟩, appendSep, if_neg (by simp [endsNl_nil])]
  | [c1], y => by
    by_cases h1 : c1 = '\n'
    · subst h1
      show split2 ('\n' :: '\n' :: '\n' :: y) = appendSep y [['\n']]
      rw [split2, if_pos ⟨rfl, rfl⟩, appendSep, if_pos (by simp [endsNl])]
      simp
    · show split2 (c1 :: '\n' :: '\n' :: y) = appendSep y [[c1]]
      rw [split2, if_neg (by intro ⟨ha, _⟩; exact h1 ha), split2,
        if_pos ⟨rfl, rfl⟩, appendSep,
        if_neg (by simp [endsNl, h1]), consHead]
  | c1 :: c2 :: z3, y => by
    by_cases hsep : c1 = '\n' ∧ c2 = '\n'
    · show split2 (c1 :: c2 :: (z3 ++ '\n' :: '\n' :: y)) =
        appendSep y (split2 (c1 :: c2 :: z3))
      rw [split2, if_pos hsep, split2, if_pos hsep, split2_append_sep z3 y]
      obtain ⟨a, b, hab⟩ := List.exists_cons_of_ne_nil (split2_ne_nil z3)
      rw [hab]
      simp only [appendSep]
    · show split2 (c1 :: c2 :: (z3 ++ '\n' :: '\n' :: y)) =
        appendSep y (split2 (c1 :: c2 :: z3))
      rw [split2, if_neg hsep, split2, if_neg hsep]
      have hrec : split2 ((c2 :: z3) ++ '\n' :: '\n' :: y) =
          appendSep y (split2 (c2 :: z3)) := split2_append_sep (c2 :: z3) y
      rw [show c2 :: (z3 ++ '\n' :: '\n' :: y) = (c2 :: z3) ++ '\n' :: '\n' :: y from rfl,
        hrec]
      refine (appendSep_consHead y c1 _ (split2_ne_nil _) ?_).symm
      intro s hsingle hnil
      subst hnil
      exact (List.cons_ne_nil c2 z3) (eq_nil_of_split2_singleton _ hsingle)

/-! ## Paragraph equivalence under whitespace edits -/

theorem nonEmptyPieces_cons (p : List Char) (l : List (List Char)) :
    nonEmptyPieces (p :: l) = nonEmptyPieces [p] ++ nonEmptyPieces l := by
  simpa using nonEmptyPieces_append [p] l

theorem nonEmptyPars_nil : nonEmptyPars [] = [] := by
  simp [nonEmptyPars, split2, nonEmptyPieces, pyStrip_nil]

theorem nonEmptyPieces_appendChar (c : Char) (h : pySpace c = true) :
    ∀ l : List (List Char), l ≠ [] →
      nonEmptyPieces (appendChar c l) = nonEmptyPieces l
  | [], h0 => absurd rfl h0
  | [p], _ => by
    rw [appendChar]
    split
    · next hcond =>
      have hp := exists_of_endsNl p hcond.2
      have hstrip : pyStrip p.dropLast = pyStrip p := by
        conv_rhs => rw [hp]
        rw [pyStrip_append_space _ '\n' (by decide)]
      simp [nonEmptyPieces, pyStrip_nil, hstrip, List.filter_cons]
    · simp [nonEmptyPieces, pyStrip_append_space p c h]
  | p :: q :: ps, _ => by
    show nonEmptyPieces (p :: appendChar c (q :: ps)) = nonEmptyPieces (p :: q :: ps)
    rw [nonEmptyPieces_cons, nonEmptyPieces_appendChar c h (q :: ps) (by simp),
      ← nonEmptyPieces_cons]

/-- Appending a whitespace character never changes the sequence of
stripped non-empty paragraphs. -/
theorem nonEmptyPars_append_space (z : List Char) (c : Char) (h : pySpace c = true) :
    nonEmptyPars (z ++ [c]) = nonEmptyPars z := by
  rw [nonEmptyPars, split2_append_char,
    nonEmptyPieces_appendChar c h _ (split2_ne_nil z)]
  rfl

theorem dropTrail_append_nonspace (u : List Char) (c : Char) (h : pySpace c = false) :
    dropTrail (u ++ [c]) = u ++ [c] := by
  simp [dropTrail, List.dropWhile_cons, h]

theorem nonEmptyPars_dropLead (s : List Char) :
    nonEmptyPars (dropLead s) = nonEmptyPars s := by
  induction s with
  | nil => simp [dropLead]
  | cons c s' ih =>
    by_cases h : pySpace c = true
    · rw [dropLead_cons_space c s' h, ih, nonEmptyPars_cons_space s' c h]
    · simp only [Bool.not_eq_true] at h
      simp [dropLead, List.dropWhile_cons, h]

theorem nonEmptyPars_dropTrail (s : List Char) :
    nonEmptyPars (dropTrail s) = nonEmptyPars s := by
  induction s using List.reverseRecOn with
  | nil => simp [dropTrail]
  | append_singleton u c ih =>
    by_cases h : pySpace c = true
    · rw [dropTrail_append_space u c h, ih, nonEmptyPars_append_space u c h]
    · simp only [Bool.not_eq_true] at h
      rw [dropTrail_append_nonspace u c h]

/-- Stripping never changes the sequence of stripped non-empty
paragraphs. -/
theorem nonEmptyPars_pyStrip (s : List Char) :
    nonEmptyPars (pyStrip s) = nonEmptyPars s := by
  rw [pyStrip, nonEmptyPars_dropTrail, nonEmptyPars_dropLead]

theorem nonEmptyPieces_appendSep (y : List Char) :
    ∀ l : List (List Char), l ≠ [] →
      nonEmptyPieces (appendSep y l) = nonEmptyPieces l ++ nonEmptyPars y
  | [], h0 => absurd rfl h0
  | [p], _ => by
    rw [appendSep]
    split
    · next hEnds =>
      have hp := exists_of_endsNl p hEnds
      have hstrip : pyStrip p.dropLast = pyStrip p := by
        conv_rhs => rw [hp]
        rw [pyStrip_append_space _ '\n' (by decide)]
      rw [nonEmptyPieces_cons,
        show nonEmptyPieces (split2 ('\n' :: y)) = nonEmptyPars ('\n' :: y) from rfl,
        nonEmptyPars_cons_space y '\n' (by decide)]
      congr 1
      simp [nonEmptyPieces, hstrip]
    · rw [nonEmptyPieces_cons]
      congr 1
  | p :: q :: ps, _ => by
    show nonEmptyPieces (p :: appendSep y (q :: ps)) =
      nonEmptyPieces (p :: q :: ps) ++ nonEmptyPars y
    rw [nonEmptyPieces_cons, nonEmptyPieces_appendSep y (q :: ps) (by simp),
      ← List.append_assoc, ← nonEmptyPieces_cons]

/-- The sequence of stripped non-empty paragraphs distributes over a
blank-line concatenation. -/
theorem nonEmptyPars_append_sep (x y : List Char) :
    nonEmptyPars (x ++ '\n' :: '\n' :: y) = nonEmptyPars x ++ nonEmptyPars y := by
  rw [nonEmptyPars, split2_append_sep,
    nonEmptyPieces_appendSep y _ (split2_ne_nil x)]
  rfl

theorem nonEmptyPars_join2 : ∀ L : List (List Char),
    nonEmptyPars (join2 L) = (L.map nonEmptyPars).flatten
  | [] => by simp [join2, nonEmptyPars_nil]
  | [s] => by simp [join2]
  | s :: a :: b => by
    rw [join2_cons_cons, nonEmptyPars_append_sep, nonEmptyPars_join2 (a :: b)]
    simp

theorem join_map_nonEmptyPars (l : List (List Char))
    (h : ∀ p ∈ l, noSep p = true) :
    (l.map nonEmptyPars).flatten = nonEmptyPieces l := by
  induction l with
  | nil => simp [nonEmptyPieces]
  | cons p ps ih =>
    have hp : nonEmptyPars p = nonEmptyPieces [p] := by
      rw [nonEmptyPars, split2_eq_self p (h p (List.mem_cons_self _ _))]
    rw [List.map_cons, List.flatten_cons, hp,
      ih (fun q hq => h q (List.mem_cons_of_mem _ hq)), ← nonEmptyPieces_cons]

/-- Loop invariant: the chunks produced from buffer `cur` and remaining
paragraphs `ps` carry exactly the stripped non-empty paragraphs of `cur`
followed by those of `ps`. -/
theorem chunkLoop_pars (cs : Nat) : ∀ (ps : List (List Char)) (cur : List Char),
    ((chunkLoop cs ps cur).map nonEmptyPars).flatten =
      nonEmptyPars cur ++ (ps.map nonEmptyPars).flatten
  | [], cur => by
    rw [chunkLoop]
    split
    · next h => subst h; simp [nonEmptyPars_nil]
    · simp [nonEmptyPars_pyStrip]
  | p :: ps, cur => by
    rw [chunkLoop]
    split
    · simp only [List.map_cons, List.flatten_cons]
      rw [chunkLoop_pars cs ps p, nonEmptyPars_pyStrip]
    · split
      · next hcur =>
        subst hcur
        rw [chunkLoop_pars cs ps p, nonEmptyPars_nil]
        simp
      · rw [chunkLoop_pars cs ps _, nonEmptyPars_append_sep]
        simp

/-- Round trip: rejoining the chunks with blank lines preserves the
sequence of stripped non-empty paragraphs of the original text. -/
theorem chunk_text_pars (text : List Char) (cs : Nat) :
    nonEmptyPars (join2 (chunk_text text cs)) = nonEmptyPars text := by
  rw [nonEmptyPars_join2, chunk_text, chunkLoop_pars, nonEmptyPars_nil,
    List.nil_append, join_map_nonEmptyPars _ (noSep_of_mem_split2 text)]
  rfl

/-! ## Emptiness and size of the chunk sequence -/

/-- The loop yields no chunk exactly when the buffer and every remaining
paragraph are empty strings. -/
theorem chunkLoop_eq_nil_iff (cs : Nat) : ∀ (ps : List (List Char)) (cur : List Char),
    chunkLoop cs ps cur = [] ↔ (cur = [] ∧ ∀ p ∈ ps, p = [])
  | [], cur => by
    rw [chunkLoop]
    split
    · next h => simp [h]
    · next h => simp [h]
  | p :: ps, cur => by
    rw [chunkLoop]
    split
    · next h => simp [h.2]
    · next h =>
      split
      · next hcur =>
        rw [chunkLoop_eq_nil_iff cs ps p]
        simp [hcur]
      · next hcur =>
        rw [chunkLoop_eq_nil_iff cs ps _]
        simp [hcur]

/-- Emptiness: `chunk_text` yields no chunk exactly when every blank-line paragraph
of the text is the empty string. -/
theorem chunk_text_eq_nil_iff (text : List Char) (cs : Nat) :
    chunk_text text cs = [] ↔ ∀ p ∈ split2 text, p = [] := by
  rw [chunk_text, chunkLoop_eq_nil_iff]
  simp

/-- Size invariant of the loop: provided the buffer is empty, a single
source paragraph, or within `chunk_size + 2`, every produced chunk is
within `chunk_size + 2` or is a stripped source paragraph. -/
theorem chunkLoop_size (cs : Nat) (P : List (List Char)) :
    ∀ (ps : List (List Char)) (cur : List Char), (∀ p ∈ ps, p ∈ P) →
      (cur = [] ∨ (∃ p ∈ P, cur = p) ∨ cur.length ≤ cs + 2) →
      ∀ c ∈ chunkLoop cs ps cur,
        c.length ≤ cs + 2 ∨ ∃ p ∈ P, c = pyStrip p
  | [], cur, _, hcur => by
    rw [chunkLoop]
    split
    · simp
    · next h =>
      intro c hc
      rw [List.mem_singleton] at hc
      subst hc
      rcases hcur with rfl | ⟨p2, hp2, hpe⟩ | hlen
      · exact absurd rfl h
      · exact Or.inr ⟨p2, hp2, by rw [hpe]⟩
      · exact Or.inl (le_trans (pyStrip_length_le cur) hlen)
  | p :: ps, cur, hps, hcur => by
    rw [chunkLoop]
    split
    · next h =>
      intro c hc
      rw [List.mem_cons] at hc
      rcases hc with rfl | hc
      · rcases hcur with rfl | ⟨q, hq, hqe⟩ | hlen
        · exact absurd rfl h.2
        · exact Or.inr ⟨q, hq, by rw [hqe]⟩
        · exact Or.inl (le_trans (pyStrip_length_le cur) hlen)
      · exact chunkLoop_size cs P ps p (fun q hq => hps q (List.mem_cons_of_mem _ hq))
          (Or.inr (Or.inl ⟨p, hps p (List.mem_cons_self _ _), rfl⟩)) c hc
    · next h =>
      split
      · exact chunkLoop_size cs P ps p (fun q hq => hps q (List.mem_cons_of_mem _ hq))
          (Or.inr (Or.inl ⟨p, hps p (List.mem_cons_self _ _), rfl⟩))
      · next hcur' =>
        refine chunkLoop_size cs P ps _ (fun q hq => hps q (List.mem_cons_of_mem _ hq))
          (Or.inr (Or.inr ?_))
        have hle : cur.length + p.length ≤ cs := by
          by_contra hgt
          exact h ⟨Nat.lt_of_not_le hgt, hcur'⟩
        simp only [List.length_append, List.length_cons]
        omega

/-- Every chunk is within `chunk_size` plus the two characters of the
final uncounted blank-line join, or is a stripped single source
paragraph longer than `chunk_size`. -/
theorem chunk_text_size (text : List Char) (cs : Nat) :
    ∀ c ∈ chunk_text text cs,
      c.length ≤ cs + 2 ∨ ∃ p ∈ split2 text, c = pyStrip p ∧ cs < p.length := by
  intro c hc
  rcases chunkLoop_size cs (split2 text) (split2 text) [] (fun _ hp => hp)
      (Or.inl rfl) c hc with hlen | ⟨p, hp, rfl⟩
  · exact Or.inl hlen
  · by_cases hlen : (pyStrip p).length ≤ cs + 2
    · exact Or.inl hlen
    · refine Or.inr ⟨p, hp, rfl, ?_⟩
      have := pyStrip_length_le p
      omega

/-! ## The fan-out loop and per-call cost accounting -/

theorem processChunks_snd (env : Env) (total : Nat) :
    ∀ (chunks : List (List Char)) (i : Nat),
      (processChunks env total chunks i).2 = (succChunkCosts env chunks.length i).sum
  | [], i => by simp [processChunks, succChunkCosts]
  | chunk :: rest, i => by
    rw [processChunks]
    simp only [List.length_cons, succChunkCosts]
    cases hcall : env.chunkCall i with
    | ok r =>
      simp only [summarize_chunk]
      rw [processChunks_snd env total rest (i + 1)]
      simp
    | err e =>
      simp only [summarize_chunk]
      rw [processChunks_snd env total rest (i + 1)]
      simp

theorem processChunks_fst_nil_iff (env : Env) (total : Nat) :
    ∀ (chunks : List (List Char)) (i : Nat),
      (processChunks env total chunks i).1 = [] ↔
        ∀ j < chunks.length, (env.chunkCall (i + j)).isErr = true
  | [], i => by simp [processChunks]
  | chunk :: rest, i => by
    rw [processChunks]
    cases hall : env.chunkCall i with
    | ok r =>
      simp only [summarize_chunk]
      constructor
      · intro hcontra
        cases hcontra
      · intro hj
        have := hj 0 (by simp)
        rw [Nat.add_zero, hall] at this
        cases this
    | err e =>
      simp only [summarize_chunk]
      rw [processChunks_fst_nil_iff env total rest (i + 1)]
      constructor
      · intro hj j hjlt
        cases j with
        | zero => rw [Nat.add_zero, hall]; rfl
        | succ j' =>
          have : i + (j' + 1) = i + 1 + j' := by omega
          rw [this]
          exact hj j' (by simpa using hjlt)
      · intro hj j hjlt
        have : i + 1 + j = i + (j + 1) := by omega
        rw [this]
        exact hj (j + 1) (by simpa using hjlt)

/-! ## Evaluation lemmas for `advanced_summarize` -/

theorem advanced_summarize_short_err (env : Env) (text : List Char)
    (h : text.length < 12000) (e : List Char) (hd : env.directCall = .err e) :
    advanced_summarize env text = none := by
  cases hx : env.extractCall <;>
    simp [advanced_summarize, extract_key_info, hx, hd, h]

theorem advanced_summarize_short_ok (env : Env) (text : List Char)
    (h : text.length < 12000) (r : LLMSuccess) (hd : env.directCall = .ok r) :
    advanced_summarize env text =
      some ⟨r.content, extractKeyInfoStr env, extractCost env + tariff r, 1,
        (splitWS text).length⟩ := by
  cases hx : env.extractCall <;>
    simp [advanced_summarize, extract_key_info, hx, hd, h,
      extractKeyInfoStr, extractCost]

theorem advanced_summarize_long_none (env : Env) (text : List Char)
    (h : ¬ text.length < 12000)
    (hF : (processChunks env (chunk_text text 10000).length
      (chunk_text text 10000) 0).1 = []) :
    advanced_summarize env text = none := by
  cases hx : env.extractCall <;>
    simp [advanced_summarize, extract_key_info, hx, h, hF]

theorem advanced_summarize_long_single (env : Env) (text : List Char)
    (h : ¬ text.length < 12000) (s : List Char) (rest : List (List Char))
    (hF : (processChunks env (chunk_text text 10000).length
      (chunk_text text 10000) 0).1 = s :: rest)
    (hN : ¬ 1 < (chunk_text text 10000).length) :
    advanced_summarize env text =
      some ⟨s, extractKeyInfoStr env,
        extractCost env + (processChunks env (chunk_text text 10000).length
          (chunk_text text 10000) 0).2,
        (chunk_text text 10000).length, (splitWS text).length⟩ := by
  cases hx : env.extractCall <;>
    simp [advanced_summarize, extract_key_info, hx, h, hF, hN,
      extractKeyInfoStr, extractCost]

theorem advanced_summarize_long_combine_ok (env : Env) (text : List Char)
    (h : ¬ text.length < 12000) (s : List Char) (rest : List (List Char))
    (hF : (processChunks env (chunk_text text 10000).length
      (chunk_text text 10000) 0).1 = s :: rest)
    (hN : 1 < (chunk_text text 10000).length)
    (r : LLMSuccess) (hc : env.combineCall = .ok r) :
    advanced_summarize env text =
      some ⟨r.content, extractKeyInfoStr env,
        extractCost env + (processChunks env (chunk_text text 10000).length
          (chunk_text text 10000) 0).2 + tariff r,
        (chunk_text text 10000).length, (splitWS text).length⟩ := by
  cases hx : env.extractCall <;>
    simp [advanced_summarize, extract_key_info, combine_summaries, hx, h, hF, hN, hc,
      extractKeyInfoStr, extractCost]

theorem advanced_summarize_long_combine_err (env : Env) (text : List Char)
    (h : ¬ text.length < 12000) (s : List Char) (rest : List (List Char))
    (hF : (processChunks env (chunk_text text 10000).length
      (chunk_text text 10000) 0).1 = s :: rest)
    (hN : 1 < (chunk_text text 10000).length)
    (e : List Char) (hc : env.combineCall = .err e) :
    advanced_summarize env text =
      some ⟨join2 (s :: rest), extractKeyInfoStr env,
        extractCost env + (processChunks env (chunk_text text 10000).length
          (chunk_text text 10000) 0).2,
        (chunk_text text 10000).length, (splitWS text).length⟩ := by
  cases hx : env.extractCall <;>
    simp [advanced_summarize, extract_key_info, combine_summaries, hx, h, hF, hN, hc,
      extractKeyInfoStr, extractCost]

/-! ## Computing `chunk_text` on concrete long documents -/

theorem noSep_of_nl_not_mem : ∀ z : List Char, '\n' ∉ z → noSep z = true
  | [], _ => rfl
  | [_], _ => rfl
  | c1 :: c2 :: rest, h => by
    rw [noSep]
    have h1 : c1 ≠ '\n' := fun hc => h (hc ▸ List.mem_cons_self _ _)
    have h2 : '\n' ∉ c2 :: rest := fun hc => h (List.mem_cons_of_mem _ hc)
    have hb : (c1 == '\n') = false := by simp [h1]
    rw [noSep_of_nl_not_mem (c2 :: rest) h2, hb]
    rfl

/-- Splitting a separator-free prefix followed by an explicit blank line:
the prefix is the first piece. -/
theorem split2_sepfree_append : ∀ (z y : List Char), '\n' ∉ z →
    split2 (z ++ '\n' :: '\n' :: y) = z :: split2 y
  | [], y, _ => by rw [List.nil_append, split2, if_pos ⟨rfl, rfl⟩]
  | c :: z', y, h => by
    have hc : c ≠ '\n' := fun hc => h (hc ▸ List.mem_cons_self _ _)
    have h' : '\n' ∉ z' := fun hm => h (List.mem_cons_of_mem _ hm)
    cases z' with
    | nil =>
      show split2 (c :: '\n' :: '\n' :: y) = [c] :: split2 y
      rw [split2, if_neg (by intro hh; exact hc hh.1), split2, if_pos ⟨rfl, rfl⟩,
        consHead]
    | cons d z'' =>
      show split2 (c :: d :: (z'' ++ '\n' :: '\n' :: y)) = (c :: d :: z'') :: split2 y
      have hrec := split2_sepfree_append (d :: z'') y h'
      rw [List.cons_append] at hrec
      rw [split2, if_neg (by intro hh; exact hc hh.1), hrec, consHead]

theorem dropWhile_no_head (p : Char → Bool) : ∀ (l : List Char),
    (∀ c ∈ l, p c = false) → l.dropWhile p = l
  | [], _ => rfl
  | c :: rest, h => by
    rw [List.dropWhile_cons, h c (List.mem_cons_self _ _)]
    simp

theorem pyStrip_no_space (s : List Char) (h : ∀ c ∈ s, pySpace c = false) :
    pyStrip s = s := by
  rw [pyStrip, dropLead, dropWhile_no_head pySpace s h, dropTrail,
    dropWhile_no_head pySpace s.reverse (fun c hc => h c (List.mem_reverse.mp hc)),
    List.reverse_reverse]

theorem nl_not_mem_replicate (n : Nat) (c : Char) (h : c ≠ '\n') :
    '\n' ∉ List.replicate n c := by
  intro hm
  exact h ((List.eq_of_mem_replicate hm).symm)

theorem pyStrip_replicate (n : Nat) (c : Char) (h : pySpace c = false) :
    pyStrip (List.replicate n c) = List.replicate n c :=
  pyStrip_no_space _ (fun _ hd => (List.eq_of_mem_replicate hd) ▸ h)

theorem replicate_char_ne_nil (n : Nat) (c : Char) (h : 0 < n) :
    List.replicate n c ≠ [] := by
  intro he
  have hlen := congrArg List.length he
  rw [List.length_replicate, List.length_nil] at hlen
  omega

theorem textLong_length : textLong.length = 20000 := by
  rw [textLong, List.length_append, List.length_cons, List.length_cons,
    List.length_replicate, List.length_replicate]

theorem textLong_split2 :
    split2 textLong = [List.replicate 9999 'a', List.replicate 9999 'b'] := by
  rw [textLong, split2_sepfree_append _ _ (nl_not_mem_replicate _ _ (by decide)),
    split2_eq_self _ (noSep_of_nl_not_mem _ (nl_not_mem_replicate _ _ (by decide)))]

theorem textLong_chunks :
    chunk_text textLong 10000 = [List.replicate 9999 'a', List.replicate 9999 'b'] := by
  rw [chunk_text, textLong_split2, chunkLoop,
    if_neg (fun hcon => hcon.2 rfl), if_pos rfl, chunkLoop,
    if_pos ⟨by rw [List.length_replicate, List.length_replicate]; omega,
      replicate_char_ne_nil _ _ (by omega)⟩,
    chunkLoop, if_neg (replicate_char_ne_nil _ _ (by omega)),
    pyStrip_replicate _ _ (by decide), pyStrip_replicate _ _ (by decide)]

theorem text12k_chunks : chunk_text text12k 10000 = [text12k] := by
  rw [chunk_text, text12k,
    split2_eq_self _ (noSep_of_nl_not_mem _ (nl_not_mem_replicate _ _ (by decide))),
    chunkLoop, if_neg (fun hcon => hcon.2 rfl), if_pos rfl, chunkLoop,
    if_neg (replicate_char_ne_nil _ _ (by omega)),
    pyStrip_replicate _ _ (by decide)]

/-! ## Cost accounting against the specification -/

theorem processChunks_fst_nil_iff_costs (env : Env) (total : Nat) :
    ∀ (chunks : List (List Char)) (i : Nat),
      (processChunks env total chunks i).1 = [] ↔
        succChunkCosts env chunks.length i = []
  | [], i => by simp [processChunks, succChunkCosts]
  | chunk :: rest, i => by
    rw [processChunks]
    simp only [List.length_cons, succChunkCosts]
    cases hcall : env.chunkCall i with
    | ok r => simp [summarize_chunk]
    | err e =>
      simp only [summarize_chunk]
      rw [processChunks_fst_nil_iff_costs env total rest (i + 1)]
      simp

theorem processChunks_congr (env env' : Env) (h : env'.chunkCall = env.chunkCall)
    (total : Nat) : ∀ (chunks : List (List Char)) (i : Nat),
      processChunks env' total chunks i = processChunks env total chunks i
  | [], _ => rfl
  | chunk :: rest, i => by
    rw [processChunks, processChunks, h,
      processChunks_congr env env' h total rest (i + 1)]

/-- C4.  Whenever a run returns a result, its `total_cost` is the exact
sum of the costs of the individual successful sub-calls made during the
run (extraction, direct or per-chunk summarization, combination), as
listed by the spec-side `specSuccessfulCallCosts`; failed sub-calls
appear nowhere in that list and so contribute exactly nothing (the
returned result carries no token total, so cost is the only
accumulator to check). -/
theorem claim_C4 (env : Env) (text : List Char) (res : PipelineResult)
    (h : advanced_summarize env text = some res) :
    res.total_cost = (specSuccessfulCallCosts env text).sum := by
  by_cases hlen : text.length < 12000
  · cases hd : env.directCall with
    | err e => rw [advanced_summarize_short_err env text hlen e hd] at h; cases h
    | ok r =>
      rw [advanced_summarize_short_ok env text hlen r hd] at h
      injection h with h'
      subst h'
      cases hx : env.extractCall <;>
        simp [specSuccessfulCallCosts, hlen, hd, hx, extractCost]
  · cases hf : (processChunks env (chunk_text text 10000).length
      (chunk_text text 10000) 0).1 with
    | nil => rw [advanced_summarize_long_none env text hlen hf] at h; cases h
    | cons s rest =>
      have hcc : succChunkCosts env (chunk_text text 10000).length 0 ≠ [] := by
        intro hnil
        rw [← processChunks_fst_nil_iff_costs env (chunk_text text 10000).length
          (chunk_text text 10000) 0, hf] at hnil
        cases hnil
      by_cases hN : 1 < (chunk_text text 10000).length
      · cases hc : env.combineCall with
        | ok r =>
          rw [advanced_summarize_long_combine_ok env text hlen s rest hf hN r hc] at h
          injection h with h'
          subst h'
          show extractCost env + _ + tariff r = _
          rw [processChunks_snd]
          cases hx : env.extractCall <;>
            simp [specSuccessfulCallCosts, hlen, hx, hN, hcc, hc, extractCost] <;>
            ring
        | err e =>
          rw [advanced_summarize_long_combine_err env text hlen s rest hf hN e hc] at h
          injection h with h'
          subst h'
          show extractCost env + _ = _
          rw [processChunks_snd]
          cases hx : env.extractCall <;>
            simp [specSuccessfulCallCosts, hlen, hx, hN, hcc, hc, extractCost]
      · rw [advanced_summarize_long_single env text hlen s rest hf hN] at h
        injection h with h'
        subst h'
        show extractCost env + _ = _
        rw [processChunks_snd]
        cases hx : env.extractCall <;>
          simp [specSuccessfulCallCosts, hlen, hx, hN, extractCost]

theorem text12k_length : text12k.length = 12000 := by
  rw [text12k, List.length_replicate]

theorem textShort_length : textShort.length = 11999 := by
  rw [textShort, List.length_replicate]

/-! ## Concrete environments for witnesses and counterexamples -/

/-! ## The claims -/

/-- C5 (amended).  `chunk_text` returns the empty sequence exactly when
every blank-line-separated paragraph of the text is the empty string —
in particular for empty text; for any text with at least one non-empty
paragraph the returned sequence is non-empty.  (The original claim, that
every non-empty text yields a non-empty sequence, fails on texts built
entirely of blank lines, such as a bare paragraph separator.) -/
theorem claim_C5 (text : List Char) (chunk_size : Nat) :
    (chunk_text text chunk_size = [] ↔ ∀ p ∈ split2 text, p = []) ∧
    (text = [] → chunk_text text chunk_size = []) := by
  refine ⟨chunk_text_eq_nil_iff text chunk_size, ?_⟩
  rintro rfl
  rw [chunk_text_eq_nil_iff]
  simp [split2]

/-- C5, counterexample to the original claim: the two-character text
consisting of one blank-line separator is non-empty, yet `chunk_text`
returns the empty sequence. -/
theorem claim_C5_counterexample :
    chunk_text ("\n\n").toList 3000 = [] ∧ ("\n\n").toList ≠ [] := by
  constructor
  · decide
  · decide

theorem claim_C5_witness : chunk_text [] 3000 = [] :=
  (claim_C5 [] 3000).2 rfl

/-- C6.  No chunk exceeds `chunk_size` in length once the two characters
of the one blank-line join not counted by the accumulation check are
accounted for (`length ≤ chunk_size + 2`), except a chunk that is a
single stripped source paragraph itself longer than `chunk_size`, which
is emitted as its own oversized chunk and never split mid-paragraph. -/
theorem claim_C6 (text : List Char) (chunk_size : Nat) :
    ∀ c ∈ chunk_text text chunk_size,
      c.length ≤ chunk_size + 2 ∨
        ∃ p ∈ split2 text, c = pyStrip p ∧ chunk_size < p.length :=
  chunk_text_size text chunk_size

theorem claim_C6_witness :
    ("abcd").toList ∈ chunk_text ("abcd").toList 1 ∧
      (("abcd").toList.length ≤ 1 + 2 ∨
        ∃ p ∈ split2 ("abcd").toList,
          ("abcd").toList = pyStrip p ∧ 1 < p.length) :=
  ⟨by decide, claim_C6 ("abcd").toList 1 ("abcd").toList (by decide)⟩

/-- C7 (amended).  Rejoining the chunks with the blank-line separators
the chunker split on yields a string paragraph-equivalent to the input:
the same ordered sequence of stripped non-empty paragraphs.  (The
original claim, concatenating the chunks with no separator, fails: the
concatenation merges the last paragraph of each chunk with the first
paragraph of the next.) -/
theorem claim_C7 (text : List Char) (chunk_size : Nat) :
    nonEmptyPars (join2 (chunk_text text chunk_size)) = nonEmptyPars text :=
  chunk_text_pars text chunk_size

/-- C7, counterexample to the original claim: chunking `"a\n\nb\n\nc"`
at size 3 yields chunks `"a\n\nb"` and `"c"`; their separator-less
concatenation `"a\n\nbc"` has paragraphs `a, bc`, not `a, b, c`. -/
theorem claim_C7_counterexample :
    nonEmptyPars (chunk_text ("a\n\nb\n\nc").toList 3).flatten ≠
      nonEmptyPars ("a\n\nb\n\nc").toList := by
  decide

/-- C10.  With a document loaded, `answer_question` leaves both session
counters untouched and returns the failure value when the adapter call
fails, and bumps `questions_asked` by one and `total_cost` by exactly
the cost of that call (returning the answer) when and only when the call
succeeds. -/
theorem claim_C10 (question docText : List Char) (stats : SessionStats)
    (call : LLMResult) (h : docText ≠ []) :
    (∀ e, call = .err e →
      answer_question question docText stats call = (.fail e, stats)) ∧
    (∀ r, call = .ok r →
      answer_question question docText stats call =
        (.ok r.content (r.promptTokens + r.completionTokens) (tariff r),
          ⟨stats.questions_asked + 1, stats.total_cost + tariff r⟩)) := by
  constructor
  · rintro e rfl
    simp [answer_question, h]
  · rintro r rfl
    simp [answer_question, h]

theorem claim_C10_witness :
    answer_question ("q").toList ("doc").toList ⟨3, 5⟩ (.err ("x").toList) =
      (.fail ("x").toList, ⟨3, 5⟩) ∧
    answer_question ("q").toList ("doc").toList ⟨3, 5⟩
        (.ok ⟨("A").toList, 1000, 2000⟩) =
      (.ok ("A").toList (1000 + 2000) (tariff ⟨("A").toList, 1000, 2000⟩),
        ⟨3 + 1, 5 + tariff ⟨("A").toList, 1000, 2000⟩⟩) :=
  ⟨(claim_C10 ("q").toList ("doc").toList ⟨3, 5⟩ _ (by decide)).1 _ rfl,
   (claim_C10 ("q").toList ("doc").toList ⟨3, 5⟩ _ (by decide)).2 _ rfl⟩

/-- Whatever result a run returns, its `key_info` field is the
extraction output on extraction success and the failure marker
otherwise. -/
theorem advanced_summarize_key_info (env : Env) (text : List Char)
    (res : PipelineResult) (h : advanced_summarize env text = some res) :
    res.key_info = extractKeyInfoStr env := by
  by_cases hlen : text.length < 12000
  · cases hd : env.directCall with
    | err e => rw [advanced_summarize_short_err env text hlen e hd] at h; cases h
    | ok r =>
      rw [advanced_summarize_short_ok env text hlen r hd] at h
      injection h with h'
      subst h'
      rfl
  · cases hf : (processChunks env (chunk_text text 10000).length
      (chunk_text text 10000) 0).1 with
    | nil => rw [advanced_summarize_long_none env text hlen hf] at h; cases h
    | cons s rest =>
      by_cases hN : 1 < (chunk_text text 10000).length
      · cases hc : env.combineCall with
        | ok r =>
          rw [advanced_summarize_long_combine_ok env text hlen s rest hf hN r hc] at h
          injection h with h'
          subst h'
          rfl
        | err e =>
          rw [advanced_summarize_long_combine_err env text hlen s rest hf hN e hc] at h
          injection h with h'
          subst h'
          rfl
      · rw [advanced_summarize_long_single env text hlen s rest hf hN] at h
        injection h with h'
        subst h'
        rfl

/-- C2.  On the long-document path, when every chunk-summarization call
fails (so zero chunk summaries succeed), `advanced_summarize` returns
the failure value `none` rather than any `PipelineResult` — in
particular it never returns a result with an empty final summary. -/
theorem claim_C2 (env : Env) (text : List Char) (h : 12000 ≤ text.length)
    (hfail : ∀ i < (chunk_text text 10000).length, (env.chunkCall i).isErr = true) :
    advanced_summarize env text = none := by
  apply advanced_summarize_long_none env text (by omega)
  rw [processChunks_fst_nil_iff]
  intro j hj
  rw [Nat.zero_add]
  exact hfail j hj

theorem claim_C2_witness :
    12000 ≤ textLong.length ∧ advanced_summarize envAllFail textLong = none :=
  ⟨by rw [textLong_length]; omega,
   claim_C2 envAllFail textLong (by rw [textLong_length]; omega) (fun _ _ => rfl)⟩

/-- C8.  When the combine call fails on the long path, the run still
returns a result, whose final summary is the successful chunk summaries
joined with blank-line separators (`join2`, the embedding of
`"\n\n".join`). -/
theorem claim_C8 (env : Env) (text : List Char) (h : 12000 ≤ text.length)
    (hN : 1 < (chunk_text text 10000).length)
    (s : List Char) (rest : List (List Char))
    (hF : (processChunks env (chunk_text text 10000).length
      (chunk_text text 10000) 0).1 = s :: rest)
    (e : List Char) (hc : env.combineCall = .err e) :
    advanced_summarize env text =
      some ⟨join2 (s :: rest), extractKeyInfoStr env,
        extractCost env + (processChunks env (chunk_text text 10000).length
          (chunk_text text 10000) 0).2,
        (chunk_text text 10000).length, (splitWS text).length⟩ :=
  advanced_summarize_long_combine_err env text (by omega) s rest hF hN e hc

theorem fanout_envCombineFail (total : Nat) (c1 c2 : List Char) :
    processChunks envCombineFail total [c1, c2] 0 =
      ([("S1").toList, ("S2").toList],
        tariff ⟨("S1").toList, 10, 5⟩ + tariff ⟨("S2").toList, 20, 7⟩) := by
  simp [processChunks, summarize_chunk, envCombineFail]

theorem claim_C8_witness :
    envCombineFail.combineCall = .err ("boom").toList ∧
    (advanced_summarize envCombineFail textLong).map PipelineResult.summary =
      some (("S1" ++ "\n\n" ++ "S2").toList) := by
  refine ⟨rfl, ?_⟩
  rw [claim_C8 envCombineFail textLong (by rw [textLong_length]; omega)
    (by rw [textLong_chunks]; simp only [List.length_cons, List.length_nil]; omega)
    ("S1").toList [("S2").toList]
    (by rw [textLong_chunks, fanout_envCombineFail])
    ("boom").toList rfl]
  simp only [Option.map_some']
  decide

/-- C9 (amended).  A failed key-info extraction never prevents a
successful summarization from producing a returned result, whose
`key_info` then carries the failure marker `Extraction failed`; and when
the run returns a result, the output of a successful extraction is always
reported in `key_info`.  However — contrary to the second direction of
the original claim — a total summarization failure (a failed direct call,
or zero successful chunk calls) makes the run return `none`, discarding
even a successful extraction. -/
theorem claim_C9 (env : Env) (text : List Char) :
    (∀ e, env.extractCall = .err e →
      ∀ res, advanced_summarize env text = some res →
        res.key_info = ("Extraction failed").toList) ∧
    (∀ r0, env.extractCall = .ok r0 →
      ∀ res, advanced_summarize env text = some res →
        res.key_info = r0.content) ∧
    (text.length < 12000 → ∀ r, env.directCall = .ok r →
      advanced_summarize env text ≠ none) ∧
    (¬ text.length < 12000 → ∀ s rest,
      (processChunks env (chunk_text text 10000).length
        (chunk_text text 10000) 0).1 = s :: rest →
      advanced_summarize env text ≠ none) := by
  refine ⟨?_, ?_, ?_, ?_⟩
  · intro e he res hres
    rw [advanced_summarize_key_info env text res hres, extractKeyInfoStr, he]
  · intro r0 hr0 res hres
    rw [advanced_summarize_key_info env text res hres, extractKeyInfoStr, hr0]
  · intro hlen r hr
    rw [advanced_summarize_short_ok env text hlen r hr]
    simp
  · intro hlen s rest hf
    by_cases hN : 1 < (chunk_text text 10000).length
    · cases hc : env.combineCall with
      | ok r =>
        rw [advanced_summarize_long_combine_ok env text hlen s rest hf hN r hc]
        simp
      | err e =>
        rw [advanced_summarize_long_combine_err env text hlen s rest hf hN e hc]
        simp
    · rw [advanced_summarize_long_single env text hlen s rest hf hN]
      simp

/-- C9, counterexample to the original claim: extraction succeeds but
the (short-path) summarization call fails, and the run returns `none` —
the output of the successful extraction is not reported anywhere. -/
theorem claim_C9_counterexample :
    envExtractOnly.extractCall = .ok ⟨("E").toList, 10, 5⟩ ∧
    advanced_summarize envExtractOnly ("doc").toList = none :=
  ⟨rfl,
   advanced_summarize_short_err envExtractOnly ("doc").toList (by decide)
     ("boom").toList rfl⟩

theorem claim_C9_witness :
    advanced_summarize envExtractFail textShort ≠ none ∧
    (advanced_summarize envExtractFail textShort).map PipelineResult.key_info =
      some (("Extraction failed").toList) := by
  have hok := advanced_summarize_short_ok envExtractFail textShort
    (by rw [textShort_length]; omega) ⟨("D").toList, 10, 5⟩ rfl
  constructor
  · exact (claim_C9 envExtractFail textShort).2.2.1
      (by rw [textShort_length]; omega) ⟨("D").toList, 10, 5⟩ rfl
  · rw [hok, Option.map_some']
    rw [(claim_C9 envExtractFail textShort).1 ("x").toList rfl _ hok]

theorem LLMResult.ok_or_err (x : LLMResult) :
    (∃ r, x = .ok r) ∨ ∃ e, x = .err e := by
  cases x with
  | ok r => exact Or.inl ⟨r, rfl⟩
  | err e => exact Or.inr ⟨e, rfl⟩

theorem fanout_envOneOfTwo (total : Nat) (c1 c2 : List Char) :
    processChunks envOneOfTwo total [c1, c2] 0 =
      ([("S").toList], tariff ⟨("S").toList, 100, 50⟩) := by
  simp [processChunks, summarize_chunk, envOneOfTwo]

theorem fanout_single_ok (env : Env) (total : Nat) (c : List Char)
    (r : LLMSuccess) (hr : env.chunkCall 0 = .ok r) :
    processChunks env total [c] 0 = ([r.content], tariff r) := by
  simp [processChunks, summarize_chunk, hr]

/-- C1 (amended).  On the long path the Summary Combiner is invoked
exactly when more than one chunk was produced (and at least one chunk
summarization succeeded): when the chunker yields a single chunk, the
result is independent of the outcome of the combine call and, on success
of the call for that chunk, its summary is the final summary verbatim; when more
than one chunk was produced and at least one summarization succeeded, a
successful combine output is the final summary — even if only
one chunk summarization succeeded, contrary to the original claim. -/
theorem claim_C1 (env : Env) (text : List Char) (h : 12000 ≤ text.length) :
    ((chunk_text text 10000).length = 1 →
      (∀ r, env.chunkCall 0 = .ok r →
        (advanced_summarize env text).map PipelineResult.summary = some r.content) ∧
      ∀ cc, advanced_summarize { env with combineCall := cc } text =
        advanced_summarize env text) ∧
    (1 < (chunk_text text 10000).length →
      ∀ s rest,
        (processChunks env (chunk_text text 10000).length
          (chunk_text text 10000) 0).1 = s :: rest →
        ∀ r, env.combineCall = .ok r →
        (advanced_summarize env text).map PipelineResult.summary = some r.content) := by
  have hlen' : ¬ text.length < 12000 := by omega
  constructor
  · intro h1
    obtain ⟨c, hc⟩ := List.length_eq_one.mp h1
    have hN : ¬ 1 < (chunk_text text 10000).length := by
      rw [h1]
      omega
    constructor
    · intro r hr
      have hf : (processChunks env (chunk_text text 10000).length
          (chunk_text text 10000) 0).1 = [r.content] := by
        rw [hc, fanout_single_ok env _ c r hr]
      rw [advanced_summarize_long_single env text hlen' r.content [] hf hN]
      rfl
    · intro cc
      have hpc : processChunks { env with combineCall := cc }
          (chunk_text text 10000).length (chunk_text text 10000) 0 =
          processChunks env (chunk_text text 10000).length (chunk_text text 10000) 0 :=
        processChunks_congr env { env with combineCall := cc } rfl _ _ _
      cases hf : (processChunks env (chunk_text text 10000).length
          (chunk_text text 10000) 0).1 with
      | nil =>
        rw [advanced_summarize_long_none env text hlen' hf,
          advanced_summarize_long_none { env with combineCall := cc } text hlen'
            (by rw [hpc]; exact hf)]
      | cons s rest =>
        rw [advanced_summarize_long_single env text hlen' s rest hf hN,
          advanced_summarize_long_single { env with combineCall := cc } text hlen'
            s rest (by rw [hpc]; exact hf) hN, hpc]
        rfl
  · intro hN s rest hf r hr
    rw [advanced_summarize_long_combine_ok env text hlen' s rest hf hN r hr]
    rfl

/-- C1, counterexample to the original claim: two chunks are produced,
exactly one chunk summarization succeeds (with summary `S`), yet the
Combiner is invoked and its output `C` — not `S` — is the final
summary. -/
theorem claim_C1_counterexample :
    (processChunks envOneOfTwo (chunk_text textLong 10000).length
      (chunk_text textLong 10000) 0).1 = [("S").toList] ∧
    (advanced_summarize envOneOfTwo textLong).map PipelineResult.summary =
      some (("C").toList) ∧
    ("C").toList ≠ ("S").toList := by
  refine ⟨?_, ?_, by decide⟩
  · rw [textLong_chunks, fanout_envOneOfTwo]
  · rw [advanced_summarize_long_combine_ok envOneOfTwo textLong
      (by rw [textLong_length]; omega) ("S").toList []
      (by rw [textLong_chunks, fanout_envOneOfTwo])
      (by rw [textLong_chunks]; simp only [List.length_cons, List.length_nil]; omega)
      ⟨("C").toList, 80, 40⟩ rfl]
    rfl

theorem claim_C1_witness :
    ((advanced_summarize envAllOk text12k).map PipelineResult.summary =
      some (("S1").toList)) ∧
    ((advanced_summarize envAllOk textLong).map PipelineResult.summary =
      some (("C").toList)) := by
  constructor
  · exact ((claim_C1 envAllOk text12k (by rw [text12k_length])).1
      (by rw [text12k_chunks]; rfl)).1 ⟨("S1").toList, 1, 1⟩ rfl
  · refine (claim_C1 envAllOk textLong (by rw [textLong_length]; omega)).2
      (by rw [textLong_chunks]; simp only [List.length_cons, List.length_nil]; omega)
      ("S1").toList [("S2").toList] ?_ ⟨("C").toList, 1, 1⟩ rfl
    rw [textLong_chunks]
    simp [processChunks, summarize_chunk, envAllOk]

/-- C3.  Routing is by character count against the fixed threshold
12,000: strictly below it, one direct summarization call produces the
final summary and `chunks_processed` is reported as 1, with the
chunk-related call slots never consulted; at 12,000 characters or more
the run chunks the text, reports `chunks_processed` as the number of
chunks, and never consults the direct-call slot. -/
theorem claim_C3 (env : Env) (text : List Char) :
    (text.length < 12000 →
      (∀ res, advanced_summarize env text = some res →
        res.chunks_processed = 1 ∧
          ∃ r, env.directCall = .ok r ∧ res.summary = r.content) ∧
      ∀ f cc, advanced_summarize { env with chunkCall := f, combineCall := cc } text =
        advanced_summarize env text) ∧
    (12000 ≤ text.length →
      (∀ res, advanced_summarize env text = some res →
        res.chunks_processed = (chunk_text text 10000).length) ∧
      ∀ dc, advanced_summarize { env with directCall := dc } text =
        advanced_summarize env text) := by
  constructor
  · intro hlen
    constructor
    · intro res hres
      cases hd : env.directCall with
      | err e =>
        rw [advanced_summarize_short_err env text hlen e hd] at hres
        cases hres
      | ok r =>
        rw [advanced_summarize_short_ok env text hlen r hd] at hres
        injection hres with h'
        subst h'
        exact ⟨rfl, r, rfl, rfl⟩
    · intro f cc
      rcases LLMResult.ok_or_err env.directCall with ⟨r, hd⟩ | ⟨e, hd⟩
      · rw [advanced_summarize_short_ok env text hlen r hd,
          advanced_summarize_short_ok { env with chunkCall := f, combineCall := cc }
            text hlen r hd]
        rfl
      · rw [advanced_summarize_short_err env text hlen e hd,
          advanced_summarize_short_err { env with chunkCall := f, combineCall := cc }
            text hlen e hd]
  · intro hlen
    have hlen' : ¬ text.length < 12000 := by omega
    constructor
    · intro res hres
      cases hf : (processChunks env (chunk_text text 10000).length
          (chunk_text text 10000) 0).1 with
      | nil =>
        rw [advanced_summarize_long_none env text hlen' hf] at hres
        cases hres
      | cons s rest =>
        by_cases hN : 1 < (chunk_text text 10000).length
        · cases hc : env.combineCall with
          | ok r =>
            rw [advanced_summarize_long_combine_ok env text hlen' s rest hf hN r hc]
              at hres
            injection hres with h'
            subst h'
            rfl
          | err e =>
            rw [advanced_summarize_long_combine_err env text hlen' s rest hf hN e hc]
              at hres
            injection hres with h'
            subst h'
            rfl
        · rw [advanced_summarize_long_single env text hlen' s rest hf hN] at hres
          injection hres with h'
          subst h'
          rfl
    · intro dc
      have hpc : processChunks { env with directCall := dc }
          (chunk_text text 10000).length (chunk_text text 10000) 0 =
          processChunks env (chunk_text text 10000).length (chunk_text text 10000) 0 :=
        processChunks_congr env { env with directCall := dc } rfl _ _ _
      cases hf : (processChunks env (chunk_text text 10000).length
          (chunk_text text 10000) 0).1 with
      | nil =>
        rw [advanced_summarize_long_none env text hlen' hf,
          advanced_summarize_long_none { env with directCall := dc } text hlen'
            (by rw [hpc]; exact hf)]
      | cons s rest =>
        by_cases hN : 1 < (chunk_text text 10000).length
        · rcases LLMResult.ok_or_err env.combineCall with ⟨r, hc⟩ | ⟨e, hc⟩
          · rw [advanced_summarize_long_combine_ok env text hlen' s rest hf hN r hc,
              advanced_summarize_long_combine_ok { env with directCall := dc } text
                hlen' s rest (by rw [hpc]; exact hf) hN r hc, hpc]
            rfl
          · rw [advanced_summarize_long_combine_err env text hlen' s rest hf hN e hc,
              advanced_summarize_long_combine_err { env with directCall := dc } text
                hlen' s rest (by rw [hpc]; exact hf) hN e hc, hpc]
            rfl
        · rw [advanced_summarize_long_single env text hlen' s rest hf hN,
            advanced_summarize_long_single { env with directCall := dc } text
              hlen' s rest (by rw [hpc]; exact hf) hN, hpc]
          rfl

theorem claim_C3_witness :
    (textShort.length < 12000 ∧
      ∃ res, advanced_summarize envAllFail textShort = some res ∧
        res.chunks_processed = 1) ∧
    (12000 ≤ text12k.length ∧
      ∃ res, advanced_summarize envAllOk text12k = some res ∧
        res.chunks_processed = (chunk_text text12k 10000).length) := by
  have hshort : textShort.length < 12000 := by rw [textShort_length]; omega
  have hlong : 12000 ≤ text12k.length := by rw [text12k_length]
  have h1 := advanced_summarize_short_ok envAllFail textShort hshort
    ⟨("D").toList, 10, 5⟩ rfl
  have hf : (processChunks envAllOk (chunk_text text12k 10000).length
      (chunk_text text12k 10000) 0).1 = [("S1").toList] := by
    rw [text12k_chunks, fanout_single_ok envAllOk _ text12k ⟨("S1").toList, 1, 1⟩ rfl]
  have h2 := advanced_summarize_long_single envAllOk text12k (by omega)
    ("S1").toList [] hf
    (by rw [text12k_chunks]; simp only [List.length_cons, List.length_nil]; omega)
  exact ⟨⟨hshort, _, h1, (((claim_C3 envAllFail textShort).1 hshort).1 _ h1).1⟩,
    ⟨hlong, _, h2, ((claim_C3 envAllOk text12k).2 hlong).1 _ h2⟩⟩

theorem claim_C4_witness :
    ∃ res, advanced_summarize envAllOk textShort = some res ∧
      res.total_cost = (specSuccessfulCallCosts envAllOk textShort).sum := by
  have h := advanced_summarize_short_ok envAllOk textShort
    (by rw [textShort_length]; omega) ⟨("D").toList, 1, 1⟩ rfl
  exact ⟨_, h, claim_C4 envAllOk textShort _ h⟩

end DocSummarizer
